import Mathlib

/-!
# Verification of the lzdatagen statistical data generator

Shallow embedding of `src/lzdatagen.c` (the LZ data generator core).

Modelling conventions:

* The external pseudo-random bit source (`pcg32_random`, supplied by
  `pcg_basic`, not part of this repository's core sources) is modelled as an
  abstract stream `σ : Nat → Nat` of raw 32-bit draws together with a running
  index `k` into the stream; every call of `pcg32_random()` in the C code
  consumes one stream element, in program order.
* `rand_double()` returns `pcg32_random() / (UINT32_MAX + 1.0)`; the value
  `r / 2^32` is exactly representable as a double, so we model it exactly as a
  rational.  The Bernoulli test `rand_double() < 1.0 / ratio` is modelled over
  `ℚ` with `ratio : ℚ` (doubles are rationals).
* The two single-precision power-law computations
  `(unsigned char)(256 * powf((float) rand_double(), (float) lit_exp))` and
  `(size_t)(256 * powf((float) rand_double(), (float) len_exp))`
  are platform-sensitive float expressions (see the repository spec's design
  note on reduced precision).  In the executable embedding they are abstract
  functions `dB lc : Nat → Nat` of the raw draw; the literal byte is reduced
  `% 256` (the C conversion to `unsigned char`), the length class is used as
  produced, with the C `assert(len < NUM_LEN)` reflected as the hypothesis
  `∀ x, lc x < 256` where a claim needs it.  The idealised real-number
  semantics of the power-law expression is modelled separately
  (`length_class_real`) to settle the claims about the sampler's range.
* Output is accumulated as a `List Nat` of byte values instead of writes
  through a pointer; "writes exactly `size` bytes and never writes past the
  end" becomes "the produced list has length exactly `size`".
* In addition to the bytes, the composer loop produces a ghost log with one
  `Iter` record per iteration of the C `while` loop, recording whether the
  histogram was refilled, which bucket was consumed, the scratch buffer in
  use, and the emitted run (literal run, or repeat run with its optional
  forced break-literal byte).  This instruments run emission order, as the
  spec suggests, without changing the byte-level behaviour.
* The inner scan loop of `generate_data_internal` refills the histogram when
  it*s exhausted; each refill deposits 512 samples, so under valid parameters
  one refill per request always suffices.  The embedding bounds the number of
  refills per request by an explicit `fuel` parameter and returns `none` when
  it is exceeded (which models the C code's non-termination when every sample
  of every refill falls outside the table, possible only for invalid
  parameters); the theorems show `fuel = 1` (or any `fuel ≥ 1`) suffices.
-/

/-- Model of `rand_double`: `pcg32_random() / (UINT32_MAX + 1.0)` applied to a
raw draw `r`, i.e. `r / 2^32`, exact as a rational. -/
def rand_double (r : Nat) : ℚ :=
  (r : ℚ) / 2 ^ 32

/-- The Bernoulli test `rand_double() < 1.0 / ratio` of
`generate_data_internal`, applied to the raw draw `r`. -/
def bern (ratio : ℚ) (r : Nat) : Bool :=
  decide (rand_double r < 1 / ratio)

/-- Model of `generate_literals_from_distribution`: one draw per output byte;
`dB` abstracts `(unsigned char)(256 * powf((float) rand_double(), lit_exp))`
applied to the raw draw (the conversion to `unsigned char` is the `% 256`).
Returns the generated bytes and the advanced stream index. -/
def generate_literals_from_distribution (dB : Nat → Nat) (σ : Nat → Nat) (k n : Nat) :
    List Nat × Nat :=
  ((List.range n).map fun j => dB (σ (k + j)) % 256, k + n)

/-- Model of `generate_literals_from_samples`: one draw per output byte, each
byte is `samples[pcg32_random() % SAMPLE_SIZE]` with `SAMPLE_SIZE = 16384`. -/
def generate_literals_from_samples (s : List Nat) (σ : Nat → Nat) (k n : Nat) :
    List Nat × Nat :=
  ((List.range n).map fun j => s.getD (σ (k + j) % 16384) 0, k + n)

/-- Model of `generate_literals`: dispatch on whether `samples` is `NULL`. -/
def generate_literals (dB : Nat → Nat) (smp : Option (List Nat)) (σ : Nat → Nat) (k n : Nat) :
    List Nat × Nat :=
  match smp with
  | some s => generate_literals_from_samples s σ k n
  | none => generate_literals_from_distribution dB σ k n

/-- One `len_freq[len]++` of `generate_lengths`.  An out-of-range class (which
would trip the C `assert(len < NUM_LEN)`) leaves the table unchanged
(`List.set` out of bounds is the identity). -/
def bumpLen (f : List Nat) (c : Nat) : List Nat :=
  f.set c (f.getD c 0 + 1)

/-- Model of `generate_lengths` with `num = LEN_PER_CHUNK = 512`: zero the
`NUM_LEN = 256` buckets, then draw 512 classes (`lc` abstracts
`(size_t)(NUM_LEN * powf((float) rand_double(), len_exp))` applied to the raw
draw) and increment the corresponding buckets.  Returns the frequency table
and the advanced stream index. -/
def generate_lengths (lc : Nat → Nat) (σ : Nat → Nat) (k : Nat) : List Nat × Nat :=
  (((List.range 512).map fun j => lc (σ (k + j))).foldl bumpLen (List.replicate 256 0),
   k + 512)

/-- The downward scan `while (len_freq[cur_len] == 0) cur_len--` of
`generate_data_internal`, without the refill: the first index `c ≤ cur` from
the top with a non-zero bucket, or `none` if all buckets from `cur` down to 0
are zero (in which case the C code refills). -/
def scanNonzero (freq : List Nat) : Nat → Option Nat
  | 0 => if freq.getD 0 0 = 0 then none else some 0
  | c + 1 => if freq.getD (c + 1) 0 = 0 then scanNonzero freq c else some (c + 1)

/-- Result of the scan-with-refill loop: consumed bucket index, current
frequency table and scratch buffer, stream index, and whether at least one
refill happened while finding this bucket. -/
structure FindRes where
  cls : Nat
  freq : List Nat
  buf : List Nat
  k : Nat
  refilled : Bool
deriving DecidableEq

/-- The scan-with-refill loop of `generate_data_internal`: scan down from
`cur`; on exhaustion regenerate the 258-byte scratch buffer
(`generate_literals(buffer, MAX_LEN, ...)`), refill the histogram
(`generate_lengths(len_freq, LEN_PER_CHUNK, ...)`) and resume from the top
bucket.  `fuel` bounds the number of refills (see module comment). -/
def findLength (dB lc : Nat → Nat) (smp : Option (List Nat)) (σ : Nat → Nat) :
    Nat → List Nat → List Nat → Nat → Nat → Bool → Option FindRes
  | fuel, freq, buffer, cur, k, rf =>
    match scanNonzero freq cur with
    | some c => some ⟨c, freq, buffer, k, rf⟩
    | none =>
      match fuel with
      | 0 => none
      | fuel + 1 =>
        findLength dB lc smp σ fuel
          (generate_lengths lc σ (generate_literals dB smp σ k 258).2).1
          (generate_literals dB smp σ k 258).1
          255
          (generate_lengths lc σ (generate_literals dB smp σ k 258).2).2
          true

/-- A run emitted by one iteration of the composer loop: a literal run with
its bytes, or a repeat run with the bytes of the forced break literal (empty
when no break was needed, a single byte otherwise) and the bytes copied from
the scratch buffer. -/
inductive Run where
  | lit : List Nat → Run
  | rep : List Nat → List Nat → Run
deriving DecidableEq

/-- Whether a run is a repeat run. -/
def Run.isRep : Run → Bool
  | .lit _ => false
  | .rep _ _ => true

/-- The forced break-literal bytes of a run (empty for literal runs and for
repeat runs not preceded by a repeat run). -/
def Run.brkBytes : Run → List Nat
  | .lit _ => []
  | .rep b _ => b

/-- The copied bytes of a repeat run (empty for literal runs). -/
def Run.repBytes : Run → List Nat
  | .lit _ => []
  | .rep _ bs => bs

/-- Ghost record of one iteration of the `while (i < size)` loop of
`generate_data_internal`: whether finding the length refilled the histogram,
the bucket index consumed (`len = MIN_LEN + cls` before clamping), the scratch
buffer current at this iteration, and the emitted run. -/
structure Iter where
  refilled : Bool
  cls : Nat
  buf : List Nat
  run : Run
deriving DecidableEq

/-- The `while (i < size)` loop of `generate_data_internal`.  Arguments after
`fuel`: an iteration budget `n` (structural; every iteration of the C loop
advances the cursor by at least one byte, so the entry point's budget
`n = size` is never exhausted — this is proved, see `genLoop_total`), the
remaining space `rem = size - i`, frequency table, scratch buffer, scan
cursor, `last_was_match`, stream index.  Returns the emitted bytes, the ghost
iteration log, and the final stream index. -/
def genLoop (ratio : ℚ) (dB lc : Nat → Nat) (smp : Option (List Nat)) (σ : Nat → Nat)
    (fuel : Nat) :
    Nat → Nat → List Nat → List Nat → Nat → Bool → Nat →
      Option (List Nat × List Iter × Nat)
  | _, 0, _, _, _, _, k => some ([], [], k)
  | 0, _ + 1, _, _, _, _, _ => none
  | n + 1, rem + 1, freq, buffer, cur, last, k =>
    match findLength dB lc smp σ fuel freq buffer cur k false with
    | none => none
    | some fr =>
      -- len = MIN_LEN + cur_len, clamped to the remaining space
      let len1 := min (3 + fr.cls) (rem + 1)
      let freq2 := fr.freq.set fr.cls (fr.freq.getD fr.cls 0 - 1)
      if bern ratio (σ fr.k) then
        -- insert len literals
        match genLoop ratio dB lc smp σ fuel n (rem + 1 - len1) freq2 fr.buf fr.cls false
            (generate_literals dB smp σ (fr.k + 1) len1).2 with
        | none => none
        | some (out, log, kf) =>
          some ((generate_literals dB smp σ (fr.k + 1) len1).1 ++ out,
            ⟨fr.refilled, fr.cls, fr.buf,
              Run.lit (generate_literals dB smp σ (fr.k + 1) len1).1⟩ :: log, kf)
      else
        if last then
          -- insert literal to break up matches, re-clamp, then insert match
          let len2 := min len1 rem
          match genLoop ratio dB lc smp σ fuel n (rem - len2) freq2 fr.buf fr.cls true
              (fr.k + 2) with
          | none => none
          | some (out, log, kf) =>
            some ((generate_literals dB smp σ (fr.k + 1) 1).1 ++ fr.buf.take len2 ++ out,
              ⟨fr.refilled, fr.cls, fr.buf,
                Run.rep (generate_literals dB smp σ (fr.k + 1) 1).1 (fr.buf.take len2)⟩ :: log,
              kf)
        else
          -- insert match of length len
          match genLoop ratio dB lc smp σ fuel n (rem + 1 - len1) freq2 fr.buf fr.cls true
              (fr.k + 1) with
          | none => none
          | some (out, log, kf) =>
            some (fr.buf.take len1 ++ out,
              ⟨fr.refilled, fr.cls, fr.buf, Run.rep [] (fr.buf.take len1)⟩ :: log, kf)

/-- Model of `generate_data_internal`: the composer loop started on a zeroed
frequency table (the C code initialises only `len_freq[0] = 0`, and index 0 is
the only entry the first scan reads before the first refill), a scratch buffer
of 258 bytes whose initial content is never emitted (the first iteration
refills before any copy; zeros stand for the uninitialised C array), cursor 0
and `last_was_match = 0`. -/
def generate_data_internal (ratio : ℚ) (dB lc : Nat → Nat) (smp : Option (List Nat))
    (σ : Nat → Nat) (size fuel k : Nat) : Option (List Nat × List Iter × Nat) :=
  genLoop ratio dB lc smp σ fuel size size (List.replicate 256 0) (List.replicate 258 0)
    0 false k

/-- Model of `lzdg_generate_data`: distribution-mode generation
(`samples = NULL`), returning the emitted bytes. -/
def lzdg_generate_data (ratio : ℚ) (dB lc : Nat → Nat) (σ : Nat → Nat) (size fuel : Nat) :
    Option (List Nat) :=
  (generate_data_internal ratio dB lc none σ size fuel 0).map fun r => r.1

/-- The block loop of `lzdg_generate_data_bulk`, one recursive step per block:
for a block of `num = min remaining BLOCK_SIZE` bytes
(`BLOCK_SIZE = 1024 * 1024`), fill the 16384-byte `samples` corpus in
distribution mode, then run `generate_data_internal` in corpus mode.  The
first argument is a structural block budget (each block consumes at least one
byte, so the entry point's budget `size` is never exhausted). -/
def bulkLoop (ratio : ℚ) (dB lc : Nat → Nat) (σ : Nat → Nat) (fuel : Nat) :
    Nat → Nat → Nat → Option (List Nat × Nat)
  | _, 0, k => some ([], k)
  | 0, _ + 1, _ => none
  | n + 1, rem + 1, k =>
    let num := min (rem + 1) (1024 * 1024)
    match generate_data_internal ratio dB lc
        (some (generate_literals_from_distribution dB σ k 16384).1) σ num fuel
        (generate_literals_from_distribution dB σ k 16384).2 with
    | none => none
    | some (out, _, k2) =>
      match bulkLoop ratio dB lc σ fuel n (rem + 1 - num) k2 with
      | none => none
      | some (t, k3) => some (out ++ t, k3)

/-- Model of `lzdg_generate_data_bulk`, returning the emitted bytes. -/
def lzdg_generate_data_bulk (ratio : ℚ) (dB lc : Nat → Nat) (σ : Nat → Nat)
    (size fuel : Nat) : Option (List Nat) :=
  (bulkLoop ratio dB lc σ fuel size size 0).map fun r => r.1

/-- Idealised real-number semantics of `rand_double` applied to a raw draw:
`r / 2^32` as a real number. -/
noncomputable def rand_double_real (r : Nat) : ℝ :=
  (r : ℝ) / 2 ^ 32

/-- Idealised real-number semantics of the length-class computation
`(size_t)(NUM_LEN * powf((float) rand_double(), (float) len_exp))` of
`generate_lengths`: `⌊256 * u ^ e⌋` over the reals (the C truncation of a
non-negative value is the floor). -/
noncomputable def length_class_real (u e : ℝ) : ℤ :=
  ⌊(256 : ℝ) * u ^ e⌋

/-! ## Basic lemmas about the literal and length generators -/

theorem generate_literals_fst_length (dB : Nat → Nat) (smp : Option (List Nat))
    (σ : Nat → Nat) (k n : Nat) : (generate_literals dB smp σ k n).1.length = n := by
  cases smp <;>
    simp [generate_literals, generate_literals_from_samples,
      generate_literals_from_distribution]

theorem generate_literals_snd (dB : Nat → Nat) (smp : Option (List Nat))
    (σ : Nat → Nat) (k n : Nat) : (generate_literals dB smp σ k n).2 = k + n := by
  cases smp <;>
    rfl

theorem mem_generate_literals_samples {s : List Nat} {σ : Nat → Nat} {k n b : Nat}
    (hs : s.length = 16384) (hb : b ∈ (generate_literals_from_samples s σ k n).1) :
    b ∈ s := by
  simp only [generate_literals_from_samples, List.mem_map] at hb
  obtain ⟨j, -, rfl⟩ := hb
  have hlt : σ (k + j) % 16384 < s.length := by
    rw [hs]; exact Nat.mod_lt _ (by omega)
  rw [List.getD_eq_getElem s 0 hlt]
  exact List.getElem_mem hlt

theorem length_bumpLen (f : List Nat) (c : Nat) : (bumpLen f c).length = f.length :=
  List.length_set f c _

theorem sum_bumpLen {f : List Nat} {c : Nat} (hc : c < f.length) :
    (bumpLen f c).sum = f.sum + 1 := by
  induction f generalizing c with
  | nil => simp at hc
  | cons a t ih =>
    cases c with
    | zero => simp [bumpLen, List.getD]; omega
    | succ c =>
      have := ih (c := c) (by simpa using hc)
      simp only [bumpLen, List.set_cons_succ, List.sum_cons, List.getD_cons_succ] at *
      omega

theorem length_foldl_bumpLen (cs : List Nat) (f : List Nat) :
    (cs.foldl bumpLen f).length = f.length := by
  induction cs generalizing f with
  | nil => rfl
  | cons c t ih => simpa [length_bumpLen] using ih (bumpLen f c)

theorem sum_foldl_bumpLen {cs : List Nat} {f : List Nat}
    (hcs : ∀ c ∈ cs, c < f.length) : (cs.foldl bumpLen f).sum = f.sum + cs.length := by
  induction cs generalizing f with
  | nil => simp
  | cons c t ih =>
    have hc : c < f.length := hcs c (by simp)
    have ht : ∀ c' ∈ t, c' < (bumpLen f c).length := by
      rw [length_bumpLen]; exact fun c' hc' => hcs c' (by simp [hc'])
    simp only [List.foldl_cons, List.length_cons, ih ht, sum_bumpLen hc]
    omega

theorem generate_lengths_fst_length (lc : Nat → Nat) (σ : Nat → Nat) (k : Nat) :
    (generate_lengths lc σ k).1.length = 256 := by
  unfold generate_lengths
  rw [length_foldl_bumpLen, List.length_replicate]

theorem generate_lengths_sum {lc : Nat → Nat} (hl : ∀ x, lc x < 256) (σ : Nat → Nat)
    (k : Nat) : (generate_lengths lc σ k).1.sum = 512 := by
  have hcs : ∀ c ∈ (List.range 512).map fun j => lc (σ (k + j)),
      c < (List.replicate 256 (0 : Nat)).length := by
    intro c hc
    rw [List.length_replicate]
    obtain ⟨j, -, rfl⟩ := List.mem_map.mp hc
    exact hl _
  have h := sum_foldl_bumpLen hcs
  rw [List.length_map, List.length_range, List.sum_replicate, smul_zero,
    Nat.zero_add] at h
  unfold generate_lengths
  dsimp only
  exact h

/-! ## Lemmas about the downward scan -/

theorem scanNonzero_some_le {freq : List Nat} {cur c : Nat}
    (h : scanNonzero freq cur = some c) : c ≤ cur := by
  induction cur with
  | zero =>
    simp only [scanNonzero] at h
    split at h <;> simp_all
  | succ n ih =>
    simp only [scanNonzero] at h
    split at h
    · exact Nat.le_succ_of_le (ih h)
    · simp_all

theorem scanNonzero_some_ne {freq : List Nat} {cur c : Nat}
    (h : scanNonzero freq cur = some c) : freq.getD c 0 ≠ 0 := by
  induction cur with
  | zero =>
    simp only [scanNonzero] at h
    split at h <;> simp_all
  | succ n ih =>
    simp only [scanNonzero] at h
    split at h
    · exact ih h
    · simp_all

theorem scanNonzero_none {freq : List Nat} {cur : Nat}
    (h : scanNonzero freq cur = none) : ∀ j ≤ cur, freq.getD j 0 = 0 := by
  induction cur with
  | zero =>
    simp only [scanNonzero] at h
    split at h
    · intro j hj
      have : j = 0 := by omega
      simp_all
    · simp_all
  | succ n ih =>
    simp only [scanNonzero] at h
    split at h
    · intro j hj
      rcases Nat.lt_or_ge j (n + 1) with hj' | hj'
      · exact ih h j (by omega)
      · have : j = n + 1 := by omega
        simp_all
    · simp_all

theorem scanNonzero_isSome_of_sum (freq : List Nat) (hlen : freq.length = 256)
    (hsum : freq.sum ≠ 0) : ∃ c, scanNonzero freq 255 = some c := by
  cases h : scanNonzero freq 255 with
  | some c => exact ⟨c, rfl⟩
  | none =>
    exfalso
    apply hsum
    apply List.sum_eq_zero
    intro x hx
    obtain ⟨n, hn, rfl⟩ := List.mem_iff_getElem.mp hx
    have hn' : n ≤ 255 := by omega
    have := scanNonzero_none h n hn'
    rwa [List.getD_eq_getElem freq 0 hn] at this

/-! ## Lemmas about the scan-with-refill loop -/

theorem findLength_rf_true {dB lc : Nat → Nat} {smp : Option (List Nat)} {σ : Nat → Nat} :
    ∀ {fuel freq buffer cur k} {fr : FindRes},
      findLength dB lc smp σ fuel freq buffer cur k true = some fr →
      fr.refilled = true := by
  intro fuel
  induction fuel with
  | zero =>
    intro freq buffer cur k fr h
    rw [findLength] at h
    split at h
    · cases h; rfl
    · cases h
  | succ n ih =>
    intro freq buffer cur k fr h
    rw [findLength] at h
    split at h
    · cases h; rfl
    · exact ih h

theorem findLength_no_refill {dB lc : Nat → Nat} {smp : Option (List Nat)} {σ : Nat → Nat}
    {fuel freq buffer cur k} {fr : FindRes}
    (h : findLength dB lc smp σ fuel freq buffer cur k false = some fr)
    (hrf : fr.refilled = false) :
    scanNonzero freq cur = some fr.cls ∧ fr.freq = freq ∧ fr.buf = buffer ∧ fr.k = k := by
  cases fuel with
  | zero =>
    rw [findLength] at h
    split at h
    · cases h
      exact ⟨by assumption, rfl, rfl, rfl⟩
    · cases h
  | succ n =>
    rw [findLength] at h
    split at h
    · cases h
      exact ⟨by assumption, rfl, rfl, rfl⟩
    · rw [findLength_rf_true h] at hrf
      cases hrf

theorem findLength_inv {dB lc : Nat → Nat} {smp : Option (List Nat)} {σ : Nat → Nat} :
    ∀ {fuel freq buffer cur k rf} {fr : FindRes},
      findLength dB lc smp σ fuel freq buffer cur k rf = some fr →
      freq.length = 256 → buffer.length = 258 → cur ≤ 255 →
      fr.freq.length = 256 ∧ fr.buf.length = 258 ∧ fr.cls ≤ 255 := by
  intro fuel
  induction fuel with
  | zero =>
    intro freq buffer cur k rf fr h hf hb hc
    rw [findLength] at h
    split at h
    · cases h
      exact ⟨hf, hb, le_trans (scanNonzero_some_le (by assumption)) hc⟩
    · cases h
  | succ n ih =>
    intro freq buffer cur k rf fr h hf hb hc
    rw [findLength] at h
    split at h
    · cases h
      exact ⟨hf, hb, le_trans (scanNonzero_some_le (by assumption)) hc⟩
    · exact ih h (generate_lengths_fst_length _ _ _)
        ((generate_literals_fst_length _ _ _ _ _)) (le_refl 255)

theorem findLength_isSome (dB lc : Nat → Nat) (smp : Option (List Nat)) (σ : Nat → Nat)
    (hl : ∀ x, lc x < 256) (fuel : Nat) (freq buffer : List Nat) (cur k : Nat) (rf : Bool)
    (hfuel : 1 ≤ fuel) :
    ∃ fr, findLength dB lc smp σ fuel freq buffer cur k rf = some fr := by
  obtain ⟨f, rfl⟩ : ∃ f, fuel = f + 1 := ⟨fuel - 1, by omega⟩
  cases hs : scanNonzero freq cur with
  | some c =>
    refine ⟨⟨c, freq, buffer, k, rf⟩, ?_⟩
    rw [findLength, hs]
  | none =>
    have hsum : (generate_lengths lc σ (generate_literals dB smp σ k 258).2).1.sum = 512 :=
      generate_lengths_sum hl _ _
    obtain ⟨c, hc⟩ := scanNonzero_isSome_of_sum
      (generate_lengths lc σ (generate_literals dB smp σ k 258).2).1
      (generate_lengths_fst_length _ _ _) (by omega)
    refine ⟨⟨c, (generate_lengths lc σ (generate_literals dB smp σ k 258).2).1,
      (generate_literals dB smp σ k 258).1,
      (generate_lengths lc σ (generate_literals dB smp σ k 258).2).2, true⟩, ?_⟩
    rw [findLength, hs]
    cases f with
    | zero => rw [findLength, hc]
    | succ m => rw [findLength, hc]

theorem findLength_buf_mem {dB lc : Nat → Nat} {s : List Nat} {σ : Nat → Nat}
    (hs : s.length = 16384) :
    ∀ {fuel freq buffer cur k rf} {fr : FindRes},
      findLength dB lc (some s) σ fuel freq buffer cur k rf = some fr →
      ((∀ b ∈ buffer, b ∈ s) ∨ scanNonzero freq cur = none) →
      ∀ b ∈ fr.buf, b ∈ s := by
  intro fuel
  induction fuel with
  | zero =>
    intro freq buffer cur k rf fr h hbuf
    rw [findLength] at h
    split at h
    · cases h
      rcases hbuf with hbuf | hbuf
      · exact hbuf
      · simp_all
    · cases h
  | succ n ih =>
    intro freq buffer cur k rf fr h hbuf
    rw [findLength] at h
    split at h
    · cases h
      rcases hbuf with hbuf | hbuf
      · exact hbuf
      · simp_all
    · refine ih h (Or.inl ?_)
      intro b hb
      exact mem_generate_literals_samples hs hb

/-! ## The composer loop writes exactly the requested number of bytes -/

theorem genLoop_total (ratio : ℚ) (dB lc : Nat → Nat) (smp : Option (List Nat))
    (σ : Nat → Nat) (hl : ∀ x, lc x < 256) (fuel : Nat) (hfuel : 1 ≤ fuel) :
    ∀ n rem (freq buffer : List Nat) (cur : Nat) (last : Bool) (k : Nat),
      rem ≤ n → freq.length = 256 → buffer.length = 258 → cur ≤ 255 →
      ∃ out log kf,
        genLoop ratio dB lc smp σ fuel n rem freq buffer cur last k =
          some (out, log, kf) ∧ out.length = rem := by
  intro n
  induction n with
  | zero =>
    intro rem freq buffer cur last k hn _ _ _
    obtain rfl : rem = 0 := by omega
    exact ⟨[], [], k, by rw [genLoop], rfl⟩
  | succ n ih =>
    intro rem freq buffer cur last k hn hf hb hc
    cases rem with
    | zero => exact ⟨[], [], k, by rw [genLoop], rfl⟩
    | succ rem =>
      obtain ⟨fr, hfr⟩ := findLength_isSome dB lc smp σ hl fuel freq buffer cur k
        false hfuel
      obtain ⟨hfr256, hfr258, hfrcls⟩ := findLength_inv hfr hf hb hc
      have hlen1le : min (3 + fr.cls) (rem + 1) ≤ rem + 1 := min_le_right _ _
      have hlen1ge : 1 ≤ min (3 + fr.cls) (rem + 1) := le_min (by omega) (by omega)
      have hlen1buf : min (3 + fr.cls) (rem + 1) ≤ fr.buf.length := by
        rw [hfr258]; exact le_trans (min_le_left _ _) (by omega)
      have hset : (fr.freq.set fr.cls (fr.freq.getD fr.cls 0 - 1)).length = 256 := by
        rw [List.length_set]; exact hfr256
      cases hbern : bern ratio (σ fr.k) with
      | true =>
        obtain ⟨out, log, kf, hsub, hsl⟩ := ih (rem + 1 - min (3 + fr.cls) (rem + 1))
          (fr.freq.set fr.cls (fr.freq.getD fr.cls 0 - 1)) fr.buf fr.cls false
          (generate_literals dB smp σ (fr.k + 1) (min (3 + fr.cls) (rem + 1))).2
          (by omega) hset hfr258 hfrcls
        refine ⟨(generate_literals dB smp σ (fr.k + 1) (min (3 + fr.cls) (rem + 1))).1 ++ out,
          ⟨fr.refilled, fr.cls, fr.buf,
            Run.lit (generate_literals dB smp σ (fr.k + 1)
              (min (3 + fr.cls) (rem + 1))).1⟩ :: log, kf, ?_, ?_⟩
        · rw [genLoop, hfr]
          dsimp only
          rw [hbern, if_pos rfl, hsub]
        · rw [List.length_append, generate_literals_fst_length, hsl]
          omega
      | false =>
        cases last with
        | true =>
          have hlen2le : min (min (3 + fr.cls) (rem + 1)) rem ≤ rem := min_le_right _ _
          obtain ⟨out, log, kf, hsub, hsl⟩ := ih
            (rem - min (min (3 + fr.cls) (rem + 1)) rem)
            (fr.freq.set fr.cls (fr.freq.getD fr.cls 0 - 1)) fr.buf fr.cls true
            (fr.k + 2) (by omega) hset hfr258 hfrcls
          refine ⟨(generate_literals dB smp σ (fr.k + 1) 1).1 ++
            fr.buf.take (min (min (3 + fr.cls) (rem + 1)) rem) ++ out,
            ⟨fr.refilled, fr.cls, fr.buf,
              Run.rep (generate_literals dB smp σ (fr.k + 1) 1).1
                (fr.buf.take (min (min (3 + fr.cls) (rem + 1)) rem))⟩ :: log, kf, ?_, ?_⟩
          · rw [genLoop, hfr]
            dsimp only
            rw [hbern, if_neg (by simp), if_pos rfl, hsub]
          · rw [List.length_append, List.length_append, List.length_take,
              generate_literals_fst_length, hsl]
            omega
        | false =>
          obtain ⟨out, log, kf, hsub, hsl⟩ := ih (rem + 1 - min (3 + fr.cls) (rem + 1))
            (fr.freq.set fr.cls (fr.freq.getD fr.cls 0 - 1)) fr.buf fr.cls true
            (fr.k + 1) (by omega) hset hfr258 hfrcls
          refine ⟨fr.buf.take (min (3 + fr.cls) (rem + 1)) ++ out,
            ⟨fr.refilled, fr.cls, fr.buf,
              Run.rep [] (fr.buf.take (min (3 + fr.cls) (rem + 1)))⟩ :: log, kf, ?_, ?_⟩
          · rw [genLoop, hfr]
            dsimp only
            rw [hbern, if_neg (by simp), if_neg (by simp), hsub]
          · rw [List.length_append, List.length_take, hsl]
            omega

theorem bulkLoop_total {ratio : ℚ} {dB lc : Nat → Nat} {σ : Nat → Nat}
    (hl : ∀ x, lc x < 256) {fuel : Nat} (hfuel : 1 ≤ fuel) :
    ∀ n rem k, rem ≤ n →
      ∃ out kf, bulkLoop ratio dB lc σ fuel n rem k = some (out, kf) ∧
        out.length = rem := by
  intro n
  induction n with
  | zero =>
    intro rem k hn
    obtain rfl : rem = 0 := by omega
    exact ⟨[], k, by rw [bulkLoop], rfl⟩
  | succ n ih =>
    intro rem k hn
    cases rem with
    | zero => exact ⟨[], k, by rw [bulkLoop], rfl⟩
    | succ rem =>
      have hnum1 : 1 ≤ min (rem + 1) (1024 * 1024) := le_min (by omega) (by omega)
      have hnumle : min (rem + 1) (1024 * 1024) ≤ rem + 1 := min_le_left _ _
      obtain ⟨out, log, k2, hint, hlen⟩ := genLoop_total ratio dB lc
        (some (generate_literals_from_distribution dB σ k 16384).1) σ hl fuel hfuel
        (min (rem + 1) (1024 * 1024)) (min (rem + 1) (1024 * 1024))
        (List.replicate 256 0) (List.replicate 258 0) 0 false
        (generate_literals_from_distribution dB σ k 16384).2
        le_rfl (List.length_replicate 256 0) (List.length_replicate 258 0) (by omega)
      have hint2 : generate_data_internal ratio dB lc
          (some (generate_literals_from_distribution dB σ k 16384).1) σ
          (min (rem + 1) (1024 * 1024)) fuel
          (generate_literals_from_distribution dB σ k 16384).2 = some (out, log, k2) := by
        rw [generate_data_internal]
        exact hint
      obtain ⟨t, k3, hsub, hslen⟩ := ih (rem + 1 - min (rem + 1) (1024 * 1024)) k2
        (by omega)
      refine ⟨out ++ t, k3, ?_, ?_⟩
      · rw [bulkLoop, hint2]
        dsimp only
        rw [hsub]
      · rw [List.length_append, hlen, hslen]
        omega

/-! ## Structural properties of the ghost iteration log -/

/-- Two adjacent iterations never emit repeat runs without the forced break
literal: if both are repeat runs, the second carries exactly one break-literal
byte. -/
def RepRel (a b : Iter) : Prop :=
  a.run.isRep = true → b.run.isRep = true → b.run.brkBytes.length = 1

/-- Between two adjacent iterations without a refill, the consumed bucket
index does not increase (the scan cursor only decrements within a refill
cycle). -/
def ClsRel (a b : Iter) : Prop :=
  b.refilled = false → b.cls ≤ a.cls

/-- Between two adjacent iterations without a refill, the scratch buffer is
unchanged. -/
def BufRel (a b : Iter) : Prop :=
  b.refilled = false → b.buf = a.buf

theorem genLoop_log_struct {ratio : ℚ} {dB lc : Nat → Nat} {smp : Option (List Nat)}
    {σ : Nat → Nat} {fuel : Nat} :
    ∀ n rem (freq buffer : List Nat) (cur : Nat) (last : Bool) (k : Nat) out log kf,
      genLoop ratio dB lc smp σ fuel n rem freq buffer cur last k = some (out, log, kf) →
      (List.Chain' RepRel log ∧
        ∀ hd ∈ log.head?, last = true → hd.run.isRep = true →
          hd.run.brkBytes.length = 1) ∧
      (List.Chain' ClsRel log ∧ ∀ hd ∈ log.head?, hd.refilled = false → hd.cls ≤ cur) ∧
      (List.Chain' BufRel log ∧ ∀ hd ∈ log.head?, hd.refilled = false → hd.buf = buffer) ∧
      (∀ it ∈ log, (∀ bs, it.run = Run.lit bs → 1 ≤ bs.length) ∧
        it.run.repBytes <+: it.buf) := by
  intro n
  induction n with
  | zero =>
    intro rem freq buffer cur last k out log kf h
    cases rem with
    | zero =>
      rw [genLoop] at h
      simp only [Option.some.injEq, Prod.mk.injEq] at h
      obtain ⟨rfl, rfl, rfl⟩ := h
      refine ⟨⟨List.chain'_nil, ?_⟩, ⟨List.chain'_nil, ?_⟩, ⟨List.chain'_nil, ?_⟩, ?_⟩ <;>
        simp
    | succ rem =>
      rw [genLoop] at h
      exact Option.noConfusion h
  | succ n ih =>
    intro rem freq buffer cur last k out log kf h
    cases rem with
    | zero =>
      rw [genLoop] at h
      simp only [Option.some.injEq, Prod.mk.injEq] at h
      obtain ⟨rfl, rfl, rfl⟩ := h
      refine ⟨⟨List.chain'_nil, ?_⟩, ⟨List.chain'_nil, ?_⟩, ⟨List.chain'_nil, ?_⟩, ?_⟩ <;>
        simp
    | succ rem =>
      rw [genLoop] at h
      cases hfl : findLength dB lc smp σ fuel freq buffer cur k false with
      | none =>
        rw [hfl] at h
        exact Option.noConfusion h
      | some fr =>
        rw [hfl] at h
        dsimp only at h
        have hnorf : fr.refilled = false →
            scanNonzero freq cur = some fr.cls ∧ fr.freq = freq ∧ fr.buf = buffer ∧
              fr.k = k := fun hrf => findLength_no_refill hfl hrf
        cases hbern : bern ratio (σ fr.k) with
        | true =>
          rw [hbern, if_pos rfl] at h
          cases hsub : genLoop ratio dB lc smp σ fuel n
              (rem + 1 - min (3 + fr.cls) (rem + 1))
              (fr.freq.set fr.cls (fr.freq.getD fr.cls 0 - 1)) fr.buf fr.cls false
              (generate_literals dB smp σ (fr.k + 1) (min (3 + fr.cls) (rem + 1))).2 with
          | none =>
            rw [hsub] at h
            exact Option.noConfusion h
          | some trip =>
            obtain ⟨out', log', kf'⟩ := trip
            rw [hsub] at h
            simp only [Option.some.injEq, Prod.mk.injEq] at h
            obtain ⟨rfl, rfl, rfl⟩ := h
            obtain ⟨⟨hA, hAh⟩, ⟨hB, hBh⟩, ⟨hC, hCh⟩, hD⟩ := ih _ _ _ _ _ _ _ _ _ hsub
            refine ⟨⟨?_, ?_⟩, ⟨?_, ?_⟩, ⟨?_, ?_⟩, ?_⟩
            · rw [List.chain'_cons']
              refine ⟨?_, hA⟩
              intro y hy h1 h2
              simp [Run.isRep] at h1
            · intro hd hhd
              simp only [List.head?_cons, Option.mem_def, Option.some.injEq] at hhd
              subst hhd
              intro _ h1
              simp [Run.isRep] at h1
            · rw [List.chain'_cons']
              exact ⟨fun y hy => hBh y hy, hB⟩
            · intro hd hhd
              simp only [List.head?_cons, Option.mem_def, Option.some.injEq] at hhd
              subst hhd
              intro hrf
              obtain ⟨hscan, -, -, -⟩ := hnorf hrf
              exact le_trans (scanNonzero_some_le hscan) le_rfl
            · rw [List.chain'_cons']
              exact ⟨fun y hy => hCh y hy, hC⟩
            · intro hd hhd
              simp only [List.head?_cons, Option.mem_def, Option.some.injEq] at hhd
              subst hhd
              intro hrf
              obtain ⟨-, -, hbuf, -⟩ := hnorf hrf
              exact hbuf
            · intro it hit
              rcases List.mem_cons.mp hit with rfl | hit
              · refine ⟨?_, ?_⟩
                · intro bs hbs
                  cases hbs
                  rw [generate_literals_fst_length]
                  exact le_min (by omega) (by omega)
                · simp [Run.repBytes]
              · exact hD it hit
        | false =>
          rw [hbern, if_neg (by simp)] at h
          cases last with
          | true =>
            rw [if_pos rfl] at h
            cases hsub : genLoop ratio dB lc smp σ fuel n
                (rem - min (min (3 + fr.cls) (rem + 1)) rem)
                (fr.freq.set fr.cls (fr.freq.getD fr.cls 0 - 1)) fr.buf fr.cls true
                (fr.k + 2) with
            | none =>
              rw [hsub] at h
              exact Option.noConfusion h
            | some trip =>
              obtain ⟨out', log', kf'⟩ := trip
              rw [hsub] at h
              simp only [Option.some.injEq, Prod.mk.injEq] at h
              obtain ⟨rfl, rfl, rfl⟩ := h
              obtain ⟨⟨hA, hAh⟩, ⟨hB, hBh⟩, ⟨hC, hCh⟩, hD⟩ := ih _ _ _ _ _ _ _ _ _ hsub
              refine ⟨⟨?_, ?_⟩, ⟨?_, ?_⟩, ⟨?_, ?_⟩, ?_⟩
              · rw [List.chain'_cons']
                refine ⟨?_, hA⟩
                intro y hy _ h2
                exact hAh y hy rfl h2
              · intro hd hhd
                simp only [List.head?_cons, Option.mem_def, Option.some.injEq] at hhd
                subst hhd
                intro _ _
                simp [Run.brkBytes, generate_literals_fst_length]
              · rw [List.chain'_cons']
                exact ⟨fun y hy => hBh y hy, hB⟩
              · intro hd hhd
                simp only [List.head?_cons, Option.mem_def, Option.some.injEq] at hhd
                subst hhd
                intro hrf
                obtain ⟨hscan, -, -, -⟩ := hnorf hrf
                exact scanNonzero_some_le hscan
              · rw [List.chain'_cons']
                exact ⟨fun y hy => hCh y hy, hC⟩
              · intro hd hhd
                simp only [List.head?_cons, Option.mem_def, Option.some.injEq] at hhd
                subst hhd
                intro hrf
                obtain ⟨-, -, hbuf, -⟩ := hnorf hrf
                exact hbuf
              · intro it hit
                rcases List.mem_cons.mp hit with rfl | hit
                · refine ⟨?_, ?_⟩
                  · intro bs hbs
                    cases hbs
                  · simp only [Run.repBytes]
                    exact List.take_prefix _ _
                · exact hD it hit
          | false =>
            rw [if_neg (by simp)] at h
            cases hsub : genLoop ratio dB lc smp σ fuel n
                (rem + 1 - min (3 + fr.cls) (rem + 1))
                (fr.freq.set fr.cls (fr.freq.getD fr.cls 0 - 1)) fr.buf fr.cls true
                (fr.k + 1) with
            | none =>
              rw [hsub] at h
              exact Option.noConfusion h
            | some trip =>
              obtain ⟨out', log', kf'⟩ := trip
              rw [hsub] at h
              simp only [Option.some.injEq, Prod.mk.injEq] at h
              obtain ⟨rfl, rfl, rfl⟩ := h
              obtain ⟨⟨hA, hAh⟩, ⟨hB, hBh⟩, ⟨hC, hCh⟩, hD⟩ := ih _ _ _ _ _ _ _ _ _ hsub
              refine ⟨⟨?_, ?_⟩, ⟨?_, ?_⟩, ⟨?_, ?_⟩, ?_⟩
              · rw [List.chain'_cons']
                refine ⟨?_, hA⟩
                intro y hy _ h2
                exact hAh y hy rfl h2
              · intro hd hhd
                simp only [List.head?_cons, Option.mem_def, Option.some.injEq] at hhd
                subst hhd
                intro hlast
                exact absurd hlast (by simp)
              · rw [List.chain'_cons']
                exact ⟨fun y hy => hBh y hy, hB⟩
              · intro hd hhd
                simp only [List.head?_cons, Option.mem_def, Option.some.injEq] at hhd
                subst hhd
                intro hrf
                obtain ⟨hscan, -, -, -⟩ := hnorf hrf
                exact scanNonzero_some_le hscan
              · rw [List.chain'_cons']
                exact ⟨fun y hy => hCh y hy, hC⟩
              · intro hd hhd
                simp only [List.head?_cons, Option.mem_def, Option.some.injEq] at hhd
                subst hhd
                intro hrf
                obtain ⟨-, -, hbuf, -⟩ := hnorf hrf
                exact hbuf
              · intro it hit
                rcases List.mem_cons.mp hit with rfl | hit
                · refine ⟨?_, ?_⟩
                  · intro bs hbs
                    cases hbs
                  · simp only [Run.repBytes]
                    exact List.take_prefix _ _
                · exact hD it hit

/-! ## The Bernoulli test at ratio 1 -/

theorem bern_ratio_one {r : Nat} (hr : r < 2 ^ 32) : bern 1 r = true := by
  unfold bern rand_double
  simp only [decide_eq_true_eq]
  have h1 : (1 : ℚ) / 1 = 1 := by norm_num
  rw [h1, div_lt_one (by positivity)]
  exact_mod_cast hr

theorem genLoop_ratio_one {dB lc : Nat → Nat} {smp : Option (List Nat)} {σ : Nat → Nat}
    {fuel : Nat} (hσ : ∀ m, σ m < 2 ^ 32) :
    ∀ n rem (freq buffer : List Nat) (cur : Nat) (last : Bool) (k : Nat) out log kf,
      genLoop 1 dB lc smp σ fuel n rem freq buffer cur last k = some (out, log, kf) →
      ∀ it ∈ log, it.run.isRep = false := by
  intro n
  induction n with
  | zero =>
    intro rem freq buffer cur last k out log kf h
    cases rem with
    | zero =>
      rw [genLoop] at h
      simp only [Option.some.injEq, Prod.mk.injEq] at h
      obtain ⟨rfl, rfl, rfl⟩ := h
      simp
    | succ rem =>
      rw [genLoop] at h
      exact Option.noConfusion h
  | succ n ih =>
    intro rem freq buffer cur last k out log kf h
    cases rem with
    | zero =>
      rw [genLoop] at h
      simp only [Option.some.injEq, Prod.mk.injEq] at h
      obtain ⟨rfl, rfl, rfl⟩ := h
      simp
    | succ rem =>
      rw [genLoop] at h
      cases hfl : findLength dB lc smp σ fuel freq buffer cur k false with
      | none =>
        rw [hfl] at h
        exact Option.noConfusion h
      | some fr =>
        rw [hfl] at h
        dsimp only at h
        rw [bern_ratio_one (hσ fr.k), if_pos rfl] at h
        cases hsub : genLoop 1 dB lc smp σ fuel n
            (rem + 1 - min (3 + fr.cls) (rem + 1))
            (fr.freq.set fr.cls (fr.freq.getD fr.cls 0 - 1)) fr.buf fr.cls false
            (generate_literals dB smp σ (fr.k + 1) (min (3 + fr.cls) (rem + 1))).2 with
        | none =>
          rw [hsub] at h
          exact Option.noConfusion h
        | some trip =>
          obtain ⟨out', log', kf'⟩ := trip
          rw [hsub] at h
          simp only [Option.some.injEq, Prod.mk.injEq] at h
          obtain ⟨rfl, rfl, rfl⟩ := h
          intro it hit
          rcases List.mem_cons.mp hit with rfl | hit
          · rfl
          · exact ih _ _ _ _ _ _ _ _ _ hsub it hit

/-! ## Corpus-mode membership -/

theorem generate_literals_from_distribution_fst_length (dB : Nat → Nat) (σ : Nat → Nat)
    (k n : Nat) : (generate_literals_from_distribution dB σ k n).1.length = n := by
  unfold generate_literals_from_distribution
  rw [List.length_map, List.length_range]

theorem genLoop_mem_samples {ratio : ℚ} {dB lc : Nat → Nat} {σ : Nat → Nat} {fuel : Nat}
    {s : List Nat} (hs : s.length = 16384) :
    ∀ n rem (freq buffer : List Nat) (cur : Nat) (last : Bool) (k : Nat) out log kf,
      genLoop ratio dB lc (some s) σ fuel n rem freq buffer cur last k =
        some (out, log, kf) →
      ((∀ b ∈ buffer, b ∈ s) ∨ scanNonzero freq cur = none) →
      ∀ b ∈ out, b ∈ s := by
  intro n
  induction n with
  | zero =>
    intro rem freq buffer cur last k out log kf h hbuf
    cases rem with
    | zero =>
      rw [genLoop] at h
      simp only [Option.some.injEq, Prod.mk.injEq] at h
      obtain ⟨rfl, rfl, rfl⟩ := h
      simp
    | succ rem =>
      rw [genLoop] at h
      exact Option.noConfusion h
  | succ n ih =>
    intro rem freq buffer cur last k out log kf h hbuf
    cases rem with
    | zero =>
      rw [genLoop] at h
      simp only [Option.some.injEq, Prod.mk.injEq] at h
      obtain ⟨rfl, rfl, rfl⟩ := h
      simp
    | succ rem =>
      rw [genLoop] at h
      cases hfl : findLength dB lc (some s) σ fuel freq buffer cur k false with
      | none =>
        rw [hfl] at h
        exact Option.noConfusion h
      | some fr =>
        rw [hfl] at h
        dsimp only at h
        have hfrbuf : ∀ b ∈ fr.buf, b ∈ s := findLength_buf_mem hs hfl hbuf
        cases hbern : bern ratio (σ fr.k) with
        | true =>
          rw [hbern, if_pos rfl] at h
          cases hsub : genLoop ratio dB lc (some s) σ fuel n
              (rem + 1 - min (3 + fr.cls) (rem + 1))
              (fr.freq.set fr.cls (fr.freq.getD fr.cls 0 - 1)) fr.buf fr.cls false
              (generate_literals dB (some s) σ (fr.k + 1) (min (3 + fr.cls) (rem + 1))).2 with
          | none =>
            rw [hsub] at h
            exact Option.noConfusion h
          | some trip =>
            obtain ⟨out', log', kf'⟩ := trip
            rw [hsub] at h
            simp only [Option.some.injEq, Prod.mk.injEq] at h
            obtain ⟨rfl, rfl, rfl⟩ := h
            intro b hb
            rcases List.mem_append.mp hb with hb | hb
            · exact mem_generate_literals_samples hs hb
            · exact ih _ _ _ _ _ _ _ _ _ hsub (Or.inl hfrbuf) b hb
        | false =>
          rw [hbern, if_neg (by simp)] at h
          cases last with
          | true =>
            rw [if_pos rfl] at h
            cases hsub : genLoop ratio dB lc (some s) σ fuel n
                (rem - min (min (3 + fr.cls) (rem + 1)) rem)
                (fr.freq.set fr.cls (fr.freq.getD fr.cls 0 - 1)) fr.buf fr.cls true
                (fr.k + 2) with
            | none =>
              rw [hsub] at h
              exact Option.noConfusion h
            | some trip =>
              obtain ⟨out', log', kf'⟩ := trip
              rw [hsub] at h
              simp only [Option.some.injEq, Prod.mk.injEq] at h
              obtain ⟨rfl, rfl, rfl⟩ := h
              intro b hb
              rcases List.mem_append.mp hb with hb | hb
              · rcases List.mem_append.mp hb with hb | hb
                · exact mem_generate_literals_samples hs hb
                · exact hfrbuf b ((List.take_prefix _ _).subset hb)
              · exact ih _ _ _ _ _ _ _ _ _ hsub (Or.inl hfrbuf) b hb
          | false =>
            rw [if_neg (by simp)] at h
            cases hsub : genLoop ratio dB lc (some s) σ fuel n
                (rem + 1 - min (3 + fr.cls) (rem + 1))
                (fr.freq.set fr.cls (fr.freq.getD fr.cls 0 - 1)) fr.buf fr.cls true
                (fr.k + 1) with
            | none =>
              rw [hsub] at h
              exact Option.noConfusion h
            | some trip =>
              obtain ⟨out', log', kf'⟩ := trip
              rw [hsub] at h
              simp only [Option.some.injEq, Prod.mk.injEq] at h
              obtain ⟨rfl, rfl, rfl⟩ := h
              intro b hb
              rcases List.mem_append.mp hb with hb | hb
              · exact hfrbuf b ((List.take_prefix _ _).subset hb)
              · exact ih _ _ _ _ _ _ _ _ _ hsub (Or.inl hfrbuf) b hb

/-! ## Repeat-run length bounds -/

theorem genLoop_rep_len {ratio : ℚ} {dB lc : Nat → Nat} {smp : Option (List Nat)}
    {σ : Nat → Nat} {fuel : Nat} :
    ∀ n rem (freq buffer : List Nat) (cur : Nat) (last : Bool) (k : Nat) out log kf,
      genLoop ratio dB lc smp σ fuel n rem freq buffer cur last k = some (out, log, kf) →
      freq.length = 256 → buffer.length = 258 → cur ≤ 255 →
      ∀ pre it post, log = pre ++ it :: post →
        it.cls ≤ 255 ∧
        ∀ brk bs, it.run = Run.rep brk bs →
          bs.length ≤ 258 ∧ (bs.length < 3 → post = []) := by
  intro n
  induction n with
  | zero =>
    intro rem freq buffer cur last k out log kf h hf hb hc
    cases rem with
    | zero =>
      rw [genLoop] at h
      simp only [Option.some.injEq, Prod.mk.injEq] at h
      obtain ⟨rfl, rfl, rfl⟩ := h
      intro pre it post hdec
      exact absurd hdec (by simp)
    | succ rem =>
      rw [genLoop] at h
      exact Option.noConfusion h
  | succ n ih =>
    intro rem freq buffer cur last k out log kf h hf hb hc
    cases rem with
    | zero =>
      rw [genLoop] at h
      simp only [Option.some.injEq, Prod.mk.injEq] at h
      obtain ⟨rfl, rfl, rfl⟩ := h
      intro pre it post hdec
      exact absurd hdec (by simp)
    | succ rem =>
      rw [genLoop] at h
      cases hfl : findLength dB lc smp σ fuel freq buffer cur k false with
      | none =>
        rw [hfl] at h
        exact Option.noConfusion h
      | some fr =>
        rw [hfl] at h
        dsimp only at h
        obtain ⟨hfr256, hfr258, hfrcls⟩ := findLength_inv hfl hf hb hc
        have hset : (fr.freq.set fr.cls (fr.freq.getD fr.cls 0 - 1)).length = 256 := by
          rw [List.length_set]
          exact hfr256
        cases hbern : bern ratio (σ fr.k) with
        | true =>
          rw [hbern, if_pos rfl] at h
          cases hsub : genLoop ratio dB lc smp σ fuel n
              (rem + 1 - min (3 + fr.cls) (rem + 1))
              (fr.freq.set fr.cls (fr.freq.getD fr.cls 0 - 1)) fr.buf fr.cls false
              (generate_literals dB smp σ (fr.k + 1) (min (3 + fr.cls) (rem + 1))).2 with
          | none =>
            rw [hsub] at h
            exact Option.noConfusion h
          | some trip =>
            obtain ⟨out', log', kf'⟩ := trip
            rw [hsub] at h
            simp only [Option.some.injEq, Prod.mk.injEq] at h
            obtain ⟨rfl, rfl, rfl⟩ := h
            intro pre it post hdec
            cases pre with
            | nil =>
              simp only [List.nil_append, List.cons.injEq] at hdec
              obtain ⟨rfl, rfl⟩ := hdec
              refine ⟨hfrcls, ?_⟩
              intro brk bs hbs
              cases hbs
            | cons it1 pre =>
              simp only [List.cons_append, List.cons.injEq] at hdec
              obtain ⟨rfl, hdec⟩ := hdec
              exact ih _ _ _ _ _ _ _ _ _ hsub hset hfr258 hfrcls pre it post hdec
        | false =>
          rw [hbern, if_neg (by simp)] at h
          cases last with
          | true =>
            rw [if_pos rfl] at h
            cases hsub : genLoop ratio dB lc smp σ fuel n
                (rem - min (min (3 + fr.cls) (rem + 1)) rem)
                (fr.freq.set fr.cls (fr.freq.getD fr.cls 0 - 1)) fr.buf fr.cls true
                (fr.k + 2) with
            | none =>
              rw [hsub] at h
              exact Option.noConfusion h
            | some trip =>
              obtain ⟨out', log', kf'⟩ := trip
              rw [hsub] at h
              simp only [Option.some.injEq, Prod.mk.injEq] at h
              obtain ⟨rfl, rfl, rfl⟩ := h
              intro pre it post hdec
              cases pre with
              | nil =>
                simp only [List.nil_append, List.cons.injEq] at hdec
                obtain ⟨rfl, rfl⟩ := hdec
                refine ⟨hfrcls, ?_⟩
                intro brk bs hbs
                cases hbs
                constructor
                · rw [List.length_take]
                  omega
                · intro hlt
                  rw [List.length_take, hfr258] at hlt
                  have hz : rem - min (min (3 + fr.cls) (rem + 1)) rem = 0 := by omega
                  rw [hz, genLoop] at hsub
                  simp only [Option.some.injEq, Prod.mk.injEq] at hsub
                  obtain ⟨-, rfl, -⟩ := hsub
                  rfl
              | cons it1 pre =>
                simp only [List.cons_append, List.cons.injEq] at hdec
                obtain ⟨rfl, hdec⟩ := hdec
                exact ih _ _ _ _ _ _ _ _ _ hsub hset hfr258 hfrcls pre it post hdec
          | false =>
            rw [if_neg (by simp)] at h
            cases hsub : genLoop ratio dB lc smp σ fuel n
                (rem + 1 - min (3 + fr.cls) (rem + 1))
                (fr.freq.set fr.cls (fr.freq.getD fr.cls 0 - 1)) fr.buf fr.cls true
                (fr.k + 1) with
            | none =>
              rw [hsub] at h
              exact Option.noConfusion h
            | some trip =>
              obtain ⟨out', log', kf'⟩ := trip
              rw [hsub] at h
              simp only [Option.some.injEq, Prod.mk.injEq] at h
              obtain ⟨rfl, rfl, rfl⟩ := h
              intro pre it post hdec
              cases pre with
              | nil =>
                simp only [List.nil_append, List.cons.injEq] at hdec
                obtain ⟨rfl, rfl⟩ := hdec
                refine ⟨hfrcls, ?_⟩
                intro brk bs hbs
                cases hbs
                constructor
                · rw [List.length_take]
                  omega
                · intro hlt
                  rw [List.length_take, hfr258] at hlt
                  have hz : rem + 1 - min (3 + fr.cls) (rem + 1) = 0 := by omega
                  rw [hz, genLoop] at hsub
                  simp only [Option.some.injEq, Prod.mk.injEq] at hsub
                  obtain ⟨-, rfl, -⟩ := hsub
                  rfl
              | cons it1 pre =>
                simp only [List.cons_append, List.cons.injEq] at hdec
                obtain ⟨rfl, hdec⟩ := hdec
                exact ih _ _ _ _ _ _ _ _ _ hsub hset hfr258 hfrcls pre it post hdec

/-! ## Block decomposition of bulk generation -/

theorem scanNonzero_replicate_zero : scanNonzero (List.replicate 256 0) 0 = none := by
  decide

theorem bulkLoop_blocks {ratio : ℚ} {dB lc : Nat → Nat} {σ : Nat → Nat}
    (hl : ∀ x, lc x < 256) {fuel : Nat} (hfuel : 1 ≤ fuel) :
    ∀ n rem k out kf,
      bulkLoop ratio dB lc σ fuel n rem k = some (out, kf) →
      ∃ L : List (Nat × List Nat),
        out = (L.map fun pr => pr.2).flatten ∧
        ∀ pr ∈ L, pr.2.length ≤ 1024 * 1024 ∧
          ∀ b ∈ pr.2, ∃ j, j < 16384 ∧
            (generate_literals_from_distribution dB σ pr.1 16384).1.getD j 0 = b := by
  intro n
  induction n with
  | zero =>
    intro rem k out kf h
    cases rem with
    | zero =>
      rw [bulkLoop] at h
      simp only [Option.some.injEq, Prod.mk.injEq] at h
      obtain ⟨rfl, rfl⟩ := h
      exact ⟨[], by simp⟩
    | succ rem =>
      rw [bulkLoop] at h
      exact Option.noConfusion h
  | succ n ih =>
    intro rem k out kf h
    cases rem with
    | zero =>
      rw [bulkLoop] at h
      simp only [Option.some.injEq, Prod.mk.injEq] at h
      obtain ⟨rfl, rfl⟩ := h
      exact ⟨[], by simp⟩
    | succ rem =>
      rw [bulkLoop] at h
      cases hint : generate_data_internal ratio dB lc
          (some (generate_literals_from_distribution dB σ k 16384).1) σ
          (min (rem + 1) (1024 * 1024)) fuel
          (generate_literals_from_distribution dB σ k 16384).2 with
      | none =>
        rw [hint] at h
        exact Option.noConfusion h
      | some trip =>
        obtain ⟨out1, log1, k2⟩ := trip
        rw [hint] at h
        dsimp only at h
        cases hsub : bulkLoop ratio dB lc σ fuel n (rem + 1 - min (rem + 1) (1024 * 1024))
            k2 with
        | none =>
          rw [hsub] at h
          exact Option.noConfusion h
        | some pr2 =>
          obtain ⟨t, k3⟩ := pr2
          rw [hsub] at h
          simp only [Option.some.injEq, Prod.mk.injEq] at h
          obtain ⟨rfl, rfl⟩ := h
          obtain ⟨L, hjoin, hL⟩ := ih _ _ _ _ hsub
          have hslen : (generate_literals_from_distribution dB σ k 16384).1.length =
              16384 := generate_literals_from_distribution_fst_length _ _ _ _
          -- length of the block
          have hout1 : out1.length = min (rem + 1) (1024 * 1024) := by
            obtain ⟨out', log', kf', heq, hlen⟩ := genLoop_total ratio dB lc
              (some (generate_literals_from_distribution dB σ k 16384).1) σ hl fuel hfuel
              (min (rem + 1) (1024 * 1024)) (min (rem + 1) (1024 * 1024))
              (List.replicate 256 0) (List.replicate 258 0) 0 false
              (generate_literals_from_distribution dB σ k 16384).2
              le_rfl (List.length_replicate 256 0) (List.length_replicate 258 0) (by omega)
            rw [generate_data_internal] at hint
            rw [hint] at heq
            simp only [Option.some.injEq, Prod.mk.injEq] at heq
            obtain ⟨rfl, -, -⟩ := heq
            exact hlen
          refine ⟨(k, out1) :: L, ?_, ?_⟩
          · simp only [List.map_cons, List.flatten_cons]
            rw [hjoin]
          · intro pr hpr
            rcases List.mem_cons.mp hpr with rfl | hpr
            · constructor
              · rw [hout1]
                exact min_le_right _ _
              · intro b hb
                have hmem : b ∈ (generate_literals_from_distribution dB σ k 16384).1 := by
                  rw [generate_data_internal] at hint
                  exact genLoop_mem_samples hslen _ _ _ _ _ _ _ _ _ _ hint
                    (Or.inr scanNonzero_replicate_zero) b hb
                obtain ⟨j, hj, hget⟩ := List.mem_iff_getElem.mp hmem
                refine ⟨j, by omega, ?_⟩
                rw [List.getD_eq_getElem _ 0 hj]
                exact hget
            · exact hL pr hpr

/-! ## The idealised length-class sampler stays in range -/

theorem length_class_real_lt {r : Nat} {e : ℝ} (hr : r < 2 ^ 32) (he : 0 < e) :
    length_class_real (rand_double_real r) e < 256 := by
  unfold length_class_real rand_double_real
  have h0 : (0 : ℝ) ≤ (r : ℝ) / 2 ^ 32 := by positivity
  have h1 : (r : ℝ) / 2 ^ 32 < 1 := by
    rw [div_lt_one (by positivity)]
    exact_mod_cast hr
  have h2 : ((r : ℝ) / 2 ^ 32) ^ e < 1 := Real.rpow_lt_one h0 h1 he
  have h3 : (256 : ℝ) * ((r : ℝ) / 2 ^ 32) ^ e < 256 :=
    mul_lt_of_lt_one_right (by norm_num) h2
  exact Int.floor_lt.mpr (by exact_mod_cast h3)

theorem length_class_real_nonneg {r : Nat} {e : ℝ} :
    0 ≤ length_class_real (rand_double_real r) e := by
  unfold length_class_real rand_double_real
  have h0 : (0 : ℝ) ≤ (r : ℝ) / 2 ^ 32 := by positivity
  have : (0 : ℝ) ≤ (256 : ℝ) * ((r : ℝ) / 2 ^ 32) ^ e := by positivity
  exact Int.le_floor.mpr (by exact_mod_cast this)

/-! ## Buffer stability along a refill cycle -/

theorem chain_append_right {R : Iter → Iter → Prop} :
    ∀ (l1 l2 : List Iter), List.Chain' R (l1 ++ l2) → List.Chain' R l2 := by
  intro l1
  induction l1 with
  | nil => exact fun l2 h => h
  | cons x l1 ih =>
    intro l2 h
    rw [List.cons_append] at h
    exact ih l2 h.tail

theorem chain_buf_eq :
    ∀ (mid : List Iter) (a b : Iter) (post : List Iter),
      List.Chain' BufRel (a :: (mid ++ b :: post)) →
      (∀ x ∈ mid, x.refilled = false) → b.refilled = false →
      b.buf = a.buf := by
  intro mid
  induction mid with
  | nil =>
    intro a b post h _ hb
    rw [List.nil_append, List.chain'_cons] at h
    exact h.1 hb
  | cons x mid ih =>
    intro a b post h hmid hb
    rw [List.cons_append, List.chain'_cons] at h
    have hx : x.buf = a.buf := h.1 (hmid x (by simp))
    have := ih x b post h.2 (fun y hy => hmid y (by simp [hy])) hb
    rw [this, hx]

/-! ## Claim theorems -/

/-- C1: for every `size ≥ 0` and valid parameters (`ratio ≥ 1`, in-range
length classes — the reflection of `len_exp > 0`, see `length_class_real_lt` —
and any refill budget `fuel ≥ 1`), both `lzdg_generate_data` and
`lzdg_generate_data_bulk` succeed and write exactly `size` bytes: the
produced byte list has length exactly `size`, which in the list model is the
statement that the cursor never passes `size` and equals `size` on return. -/
theorem c1_writes_exactly_size (ratio : ℚ) (dB lc : Nat → Nat) (σ : Nat → Nat)
    (size fuel : Nat) (_hratio : 1 ≤ ratio) (hl : ∀ x, lc x < 256) (hfuel : 1 ≤ fuel) :
    (∃ out, lzdg_generate_data ratio dB lc σ size fuel = some out ∧
      out.length = size) ∧
    (∃ out, lzdg_generate_data_bulk ratio dB lc σ size fuel = some out ∧
      out.length = size) := by
  constructor
  · obtain ⟨out, log, kf, heq, hlen⟩ := genLoop_total ratio dB lc none σ hl fuel hfuel
      size size (List.replicate 256 0) (List.replicate 258 0) 0 false 0
      le_rfl (List.length_replicate 256 0) (List.length_replicate 258 0) (by omega)
    refine ⟨out, ?_, hlen⟩
    rw [lzdg_generate_data, generate_data_internal, heq]
    rfl
  · obtain ⟨out, kf, heq, hlen⟩ := bulkLoop_total hl hfuel size size 0 le_rfl
    refine ⟨out, ?_, hlen⟩
    rw [lzdg_generate_data_bulk, heq]
    rfl

/-- C2: in every iteration log produced by `generate_data_internal`, two
adjacent repeat runs never touch: if an iteration emits a repeat run and the
previous iteration's run was also a repeat run, the later repeat run carries
exactly one forced break-literal byte (`RepRel`), and every literal run is at
least one byte long, so at least one literal byte separates any two
consecutive repeat runs. -/
theorem c2_no_adjacent_repeats {ratio : ℚ} {dB lc : Nat → Nat} {smp : Option (List Nat)}
    {σ : Nat → Nat} {size fuel k : Nat} {out : List Nat} {log : List Iter} {kf : Nat}
    (h : generate_data_internal ratio dB lc smp σ size fuel k = some (out, log, kf)) :
    List.Chain' RepRel log ∧
      ∀ it ∈ log, ∀ bs, it.run = Run.lit bs → 1 ≤ bs.length := by
  rw [generate_data_internal] at h
  obtain ⟨⟨hA, -⟩, -, -, hD⟩ := genLoop_log_struct _ _ _ _ _ _ _ _ _ _ h
  exact ⟨hA, fun it hit bs hbs => (hD it hit).1 bs hbs⟩

/-- C3 (counterexample): the claim asserts that with `ratio = 1.0` the
Bernoulli test `u < 1/ratio` is false for every uniform draw `u ∈ [0,1)`.  At
the draw `r = 0` the value `u = rand_double 0` lies in `[0,1)` and the test is
true, refuting the claim. -/
theorem c3_counterexample :
    0 ≤ rand_double 0 ∧ rand_double 0 < 1 ∧ bern 1 0 = true := by
  refine ⟨?_, ?_, ?_⟩ <;> with_unfolding_all decide

/-- C3 (amended): with `ratio = 1.0` the Bernoulli test selects the literal
branch with probability 1 — for every raw 32-bit draw `r < 2^32` the
comparison `rand_double r < 1/1` is true — so the output of
`generate_data_internal` consists exclusively of literal runs (pure
incompressible noise) and contains no repeat run at all. -/
theorem c3_ratio_one_all_literal {dB lc : Nat → Nat} {smp : Option (List Nat)}
    {σ : Nat → Nat} {size fuel k : Nat} {out : List Nat} {log : List Iter} {kf : Nat}
    (hσ : ∀ m, σ m < 2 ^ 32)
    (h : generate_data_internal 1 dB lc smp σ size fuel k = some (out, log, kf)) :
    (∀ r, r < 2 ^ 32 → bern 1 r = true) ∧ ∀ it ∈ log, it.run.isRep = false := by
  refine ⟨fun r hr => bern_ratio_one hr, ?_⟩
  rw [generate_data_internal] at h
  exact genLoop_ratio_one hσ _ _ _ _ _ _ _ _ _ _ h

/-- C4: under valid parameters a generation call always terminates with a
result: every histogram refill deposits 512 in-range samples (the buckets sum
to 512 > 0), so the inner scan always finds a non-zero bucket after at most
one refill, and each outer iteration advances the cursor by at least one
byte; both entry points return `some` for every `size`. -/
theorem c4_terminates (ratio : ℚ) (dB lc : Nat → Nat) (smp : Option (List Nat))
    (σ : Nat → Nat) (size fuel k : Nat) (hl : ∀ x, lc x < 256) (hfuel : 1 ≤ fuel) :
    (∀ m, (generate_lengths lc σ m).1.sum = 512) ∧
    (generate_data_internal ratio dB lc smp σ size fuel k).isSome = true ∧
    (lzdg_generate_data_bulk ratio dB lc σ size fuel).isSome = true := by
  refine ⟨fun m => generate_lengths_sum hl σ m, ?_, ?_⟩
  · obtain ⟨out, log, kf, heq, -⟩ := genLoop_total ratio dB lc smp σ hl fuel hfuel
      size size (List.replicate 256 0) (List.replicate 258 0) 0 false k
      le_rfl (List.length_replicate 256 0) (List.length_replicate 258 0) (by omega)
    rw [generate_data_internal, heq]
    rfl
  · obtain ⟨out, kf, heq, -⟩ := bulkLoop_total hl hfuel size size 0 le_rfl
    rw [lzdg_generate_data_bulk, heq]
    rfl

/-- C5: for every raw draw `r < 2^32` (so that the uniform value
`rand_double_real r` lies in `[0,1)`) and every length exponent `e > 0`, the
sampled length class `⌊256 * u^e⌋` is non-negative and strictly below 256, so
the defensive `assert(len < NUM_LEN)` of `generate_lengths` never fires under
valid parameters (in the idealised real-number semantics of the sampler). -/
theorem c5_length_class_in_range {r : Nat} {e : ℝ} (hr : r < 2 ^ 32) (he : 0 < e) :
    0 ≤ length_class_real (rand_double_real r) e ∧
      length_class_real (rand_double_real r) e < 256 :=
  ⟨length_class_real_nonneg, length_class_real_lt hr he⟩

/-- C6: `lzdg_generate_data_bulk` decomposes the output into consecutive
blocks of at most `1024 * 1024` bytes; each block has its own fresh corpus —
the 16384 bytes produced by `generate_literals_from_distribution` (the
caller's literal exponent) at the block's starting stream position — and
every byte of the block (in particular every literal byte) is `samples[j]`
for some index `j < 16384` into that block's corpus. -/
theorem c6_bulk_corpus_blocks {ratio : ℚ} {dB lc : Nat → Nat} {σ : Nat → Nat}
    {size fuel : Nat} {out : List Nat} (hl : ∀ x, lc x < 256) (hfuel : 1 ≤ fuel)
    (h : lzdg_generate_data_bulk ratio dB lc σ size fuel = some out) :
    ∃ L : List (Nat × List Nat),
      out = (L.map fun pr => pr.2).flatten ∧
      ∀ pr ∈ L,
        pr.2.length ≤ 1024 * 1024 ∧
        (generate_literals_from_distribution dB σ pr.1 16384).1.length = 16384 ∧
        ∀ b ∈ pr.2, ∃ j, j < 16384 ∧
          (generate_literals_from_distribution dB σ pr.1 16384).1.getD j 0 = b := by
  rw [lzdg_generate_data_bulk] at h
  cases hb : bulkLoop ratio dB lc σ fuel size size 0 with
  | none =>
    rw [hb] at h
    exact Option.noConfusion h
  | some pr =>
    obtain ⟨o, kf⟩ := pr
    rw [hb] at h
    simp only [Option.map_some', Option.some.injEq] at h
    subst h
    obtain ⟨L, hjoin, hL⟩ := bulkLoop_blocks hl hfuel _ _ _ _ _ hb
    refine ⟨L, hjoin, fun pr hpr => ?_⟩
    obtain ⟨h1, h2⟩ := hL pr hpr
    exact ⟨h1, generate_literals_from_distribution_fst_length _ _ _ _, h2⟩

/-- C7: within one refill cycle the consumed bucket indices — hence the
pre-clamp run lengths `3 + cls` — are non-increasing from one iteration to
the next: whenever an iteration did not trigger a refill, its bucket index is
at most the previous iteration's index (the scan cursor only decrements until
the next refill resets it to the top bucket). -/
theorem c7_scan_top_to_bottom {ratio : ℚ} {dB lc : Nat → Nat} {smp : Option (List Nat)}
    {σ : Nat → Nat} {size fuel k : Nat} {out : List Nat} {log : List Iter} {kf : Nat}
    (h : generate_data_internal ratio dB lc smp σ size fuel k = some (out, log, kf)) :
    List.Chain' ClsRel log ∧
      List.Chain' (fun a b => b.refilled = false → 3 + b.cls ≤ 3 + a.cls) log := by
  rw [generate_data_internal] at h
  obtain ⟨-, ⟨hB, -⟩, -, -⟩ := genLoop_log_struct _ _ _ _ _ _ _ _ _ _ h
  refine ⟨hB, hB.imp fun a b hab hrf => ?_⟩
  have := hab hrf
  omega

/-- C8 (amended): every run length issued by the histogram lies in `[3, 258]`
before clamping (`len = 3 + cls` with `cls ≤ 255`); after clamping to the
remaining space every repeat run copies at most 258 bytes, and a repeat run
of fewer than 3 bytes (including the zero-byte repeat possible after a forced
break literal on the last byte) can only be the final run of the buffer. -/
theorem c8_rep_length_bounds {ratio : ℚ} {dB lc : Nat → Nat} {smp : Option (List Nat)}
    {σ : Nat → Nat} {size fuel k : Nat} {out : List Nat} {log : List Iter} {kf : Nat}
    (h : generate_data_internal ratio dB lc smp σ size fuel k = some (out, log, kf)) :
    ∀ pre it post, log = pre ++ it :: post →
      (3 ≤ 3 + it.cls ∧ 3 + it.cls ≤ 258) ∧
      ∀ brk bs, it.run = Run.rep brk bs →
        bs.length ≤ 258 ∧ (bs.length < 3 → post = []) := by
  rw [generate_data_internal] at h
  intro pre it post hdec
  obtain ⟨hcls, hrep⟩ := genLoop_rep_len _ _ _ _ _ _ _ _ _ _ h
    (List.length_replicate 256 0) (List.length_replicate 258 0) (by omega)
    pre it post hdec
  exact ⟨⟨by omega, by omega⟩, hrep⟩

/-- C9: generation is deterministic in the random source: two runs of either
entry point over draw streams that agree pointwise (same seed of the random
bit source) and identical parameters produce byte-for-byte identical
results. -/
theorem c9_deterministic {ratio : ℚ} {dB lc : Nat → Nat} {σ1 σ2 : Nat → Nat}
    {size fuel : Nat} (hσ : ∀ m, σ1 m = σ2 m) :
    lzdg_generate_data ratio dB lc σ1 size fuel =
      lzdg_generate_data ratio dB lc σ2 size fuel ∧
    lzdg_generate_data_bulk ratio dB lc σ1 size fuel =
      lzdg_generate_data_bulk ratio dB lc σ2 size fuel := by
  obtain rfl : σ1 = σ2 := funext hσ
  exact ⟨rfl, rfl⟩

/-- C10: every repeat run is copied from offset 0 of the scratch buffer — its
bytes are a prefix of the scratch buffer current at that iteration — and any
two repeat runs of the same refill cycle (no refill strictly between them)
are prefixes of one another, because the scratch buffer changes only when the
histogram is refilled. -/
theorem c10_reps_prefix_of_scratch {ratio : ℚ} {dB lc : Nat → Nat}
    {smp : Option (List Nat)} {σ : Nat → Nat} {size fuel k : Nat} {out : List Nat}
    {log : List Iter} {kf : Nat}
    (h : generate_data_internal ratio dB lc smp σ size fuel k = some (out, log, kf)) :
    (∀ it ∈ log, it.run.repBytes <+: it.buf) ∧
    ∀ pre a mid b post, log = pre ++ a :: (mid ++ b :: post) →
      (∀ x ∈ mid, x.refilled = false) → b.refilled = false →
      a.run.repBytes <+: b.run.repBytes ∨ b.run.repBytes <+: a.run.repBytes := by
  rw [generate_data_internal] at h
  obtain ⟨-, -, ⟨hC, -⟩, hD⟩ := genLoop_log_struct _ _ _ _ _ _ _ _ _ _ h
  refine ⟨fun it hit => (hD it hit).2, ?_⟩
  intro pre a mid b post hdec hmid hb
  have hchain : List.Chain' BufRel (a :: (mid ++ b :: post)) := by
    rw [hdec] at hC
    exact chain_append_right pre _ hC
  have hbuf : b.buf = a.buf := chain_buf_eq mid a b post hchain hmid hb
  have ha : a.run.repBytes <+: a.buf := (hD a (by rw [hdec]; simp)).2
  have hbp : b.run.repBytes <+: a.buf := by
    rw [← hbuf]
    exact (hD b (by rw [hdec]; simp)).2
  exact List.prefix_or_prefix_of_prefix ha hbp

/-! ## Concrete executions: counterexamples and witnesses -/

/-- A draw stream whose two Bernoulli draws (stream positions 770 and 771 in
a 4-byte run that needs one refill) are `2^31`, so that at `ratio = 2` the
test `1/2 < 1/2` fails and the repeat branch is taken twice in a row. -/
def repDrawStream : Nat → Nat :=
  fun m => if m = 770 ∨ m = 771 then 2 ^ 31 else 0

/-- Checks the claimed range `[1, 258]` of post-clamp repeat-run lengths over
an iteration log. -/
def repLensInClaimedRange (log : List Iter) : Bool :=
  log.all fun it =>
    match it.run with
    | Run.rep _ bs => decide (1 ≤ bs.length ∧ bs.length ≤ 258)
    | Run.lit _ => true

set_option maxRecDepth 600000 in
/-- C8 (counterexample): the claim asserts every post-clamp repeat-run length
lies in `[1, 258]`.  On a concrete 4-byte run whose two Bernoulli draws both
select the repeat branch, the second repeat run is re-clamped to length 0
after its forced break literal (the break consumed the last byte), so the
claimed range check evaluates to `false`: the log ends with `Run.rep [0] []`,
a repeat run of 0 copied bytes. -/
theorem c8_counterexample :
    (generate_data_internal 2 (fun r => r) (fun _ => 0) none repDrawStream 4 1 0).map
      (fun r => (r.1, repLensInClaimedRange r.2.1, r.2.1.map fun it => it.run)) =
      some ([0, 0, 0, 0], false, [Run.rep [] [0, 0, 0], Run.rep [0] []]) := by
  with_unfolding_all decide

set_option maxRecDepth 600000 in
theorem c1_witness :
    1 ≤ (2 : ℚ) ∧ (∀ x : Nat, (fun _ : Nat => 0) x < 256) ∧ 1 ≤ 1 ∧
    ((∃ out, lzdg_generate_data 2 (fun r => r) (fun _ => 0) (fun _ => 0) 3 1 =
        some out ∧ out.length = 3) ∧
     (∃ out, lzdg_generate_data_bulk 2 (fun r => r) (fun _ => 0) (fun _ => 0) 3 1 =
        some out ∧ out.length = 3)) :=
  ⟨by norm_num, fun x => by norm_num, le_rfl,
    c1_writes_exactly_size 2 (fun r => r) (fun _ => 0) (fun _ => 0) 3 1 (by norm_num)
      (fun x => by norm_num) le_rfl⟩

set_option maxRecDepth 600000 in
theorem c2_witness :
    generate_data_internal 2 (fun r => r) (fun _ => 0) none (fun _ => 0) 3 1 0 =
      some ([0, 0, 0], [⟨true, 0, List.replicate 258 0, Run.lit [0, 0, 0]⟩], 774) ∧
    (List.Chain' RepRel [⟨true, 0, List.replicate 258 0, Run.lit [0, 0, 0]⟩] ∧
      ∀ it ∈ [(⟨true, 0, List.replicate 258 0, Run.lit [0, 0, 0]⟩ : Iter)],
        ∀ bs, it.run = Run.lit bs → 1 ≤ bs.length) := by
  have h : generate_data_internal 2 (fun r => r) (fun _ => 0) none (fun _ => 0) 3 1 0 =
      some ([0, 0, 0], [⟨true, 0, List.replicate 258 0, Run.lit [0, 0, 0]⟩], 774) := by
    with_unfolding_all decide
  exact ⟨h, c2_no_adjacent_repeats h⟩

set_option maxRecDepth 600000 in
theorem c3_witness :
    (∀ m : Nat, (fun _ : Nat => 0) m < 2 ^ 32) ∧
    generate_data_internal 1 (fun r => r) (fun _ => 0) none (fun _ => 0) 2 1 0 =
      some ([0, 0], [⟨true, 0, List.replicate 258 0, Run.lit [0, 0]⟩], 773) ∧
    ((∀ r, r < 2 ^ 32 → bern 1 r = true) ∧
      ∀ it ∈ [(⟨true, 0, List.replicate 258 0, Run.lit [0, 0]⟩ : Iter)],
        it.run.isRep = false) := by
  have hσ : ∀ m : Nat, (fun _ : Nat => 0) m < 2 ^ 32 := fun m => by norm_num
  have h : generate_data_internal 1 (fun r => r) (fun _ => 0) none (fun _ => 0) 2 1 0 =
      some ([0, 0], [⟨true, 0, List.replicate 258 0, Run.lit [0, 0]⟩], 773) := by
    with_unfolding_all decide
  exact ⟨hσ, h, c3_ratio_one_all_literal hσ h⟩

theorem c4_witness :
    (∀ x : Nat, (fun _ : Nat => 0) x < 256) ∧ 1 ≤ 1 ∧
    ((∀ m, (generate_lengths (fun _ => 0) (fun _ => 0) m).1.sum = 512) ∧
      (generate_data_internal 2 (fun r => r) (fun _ => 0) none (fun _ => 0)
        5 1 0).isSome = true ∧
      (lzdg_generate_data_bulk 2 (fun r => r) (fun _ => 0) (fun _ => 0)
        5 1).isSome = true) :=
  ⟨fun x => by norm_num, le_rfl,
    c4_terminates 2 (fun r => r) (fun _ => 0) none (fun _ => 0) 5 1 0
      (fun x => by norm_num) le_rfl⟩

theorem c5_witness :
    (1 : Nat) < 2 ^ 32 ∧ (0 : ℝ) < 1 ∧
    (0 ≤ length_class_real (rand_double_real 1) 1 ∧
      length_class_real (rand_double_real 1) 1 < 256) :=
  ⟨by norm_num, by norm_num, c5_length_class_in_range (by norm_num) (by norm_num)⟩

set_option maxRecDepth 600000 in
theorem c7_witness :
    generate_data_internal 2 (fun r => r) (fun _ => 0) none repDrawStream 4 1 0 =
      some ([0, 0, 0, 0],
        [⟨true, 0, List.replicate 258 0, Run.rep [] [0, 0, 0]⟩,
         ⟨false, 0, List.replicate 258 0, Run.rep [0] []⟩], 773) ∧
    (List.Chain' ClsRel
        [⟨true, 0, List.replicate 258 0, Run.rep [] [0, 0, 0]⟩,
         ⟨false, 0, List.replicate 258 0, Run.rep [0] []⟩] ∧
      List.Chain' (fun a b : Iter => b.refilled = false → 3 + b.cls ≤ 3 + a.cls)
        [⟨true, 0, List.replicate 258 0, Run.rep [] [0, 0, 0]⟩,
         ⟨false, 0, List.replicate 258 0, Run.rep [0] []⟩]) := by
  have h : generate_data_internal 2 (fun r => r) (fun _ => 0) none repDrawStream 4 1 0 =
      some ([0, 0, 0, 0],
        [⟨true, 0, List.replicate 258 0, Run.rep [] [0, 0, 0]⟩,
         ⟨false, 0, List.replicate 258 0, Run.rep [0] []⟩], 773) := by
    with_unfolding_all decide
  exact ⟨h, c7_scan_top_to_bottom h⟩

set_option maxRecDepth 600000 in
theorem c8_witness :
    generate_data_internal 2 (fun r => r) (fun _ => 0) none repDrawStream 4 1 0 =
      some ([0, 0, 0, 0],
        [⟨true, 0, List.replicate 258 0, Run.rep [] [0, 0, 0]⟩,
         ⟨false, 0, List.replicate 258 0, Run.rep [0] []⟩], 773) ∧
    ∀ pre it post,
      ([⟨true, 0, List.replicate 258 0, Run.rep [] [0, 0, 0]⟩,
        ⟨false, 0, List.replicate 258 0, Run.rep [0] []⟩] : List Iter) =
        pre ++ it :: post →
      (3 ≤ 3 + it.cls ∧ 3 + it.cls ≤ 258) ∧
      ∀ brk bs, it.run = Run.rep brk bs →
        bs.length ≤ 258 ∧ (bs.length < 3 → post = []) := by
  have h : generate_data_internal 2 (fun r => r) (fun _ => 0) none repDrawStream 4 1 0 =
      some ([0, 0, 0, 0],
        [⟨true, 0, List.replicate 258 0, Run.rep [] [0, 0, 0]⟩,
         ⟨false, 0, List.replicate 258 0, Run.rep [0] []⟩], 773) := by
    with_unfolding_all decide
  exact ⟨h, c8_rep_length_bounds h⟩

theorem c9_witness :
    (∀ m : Nat, (fun _ : Nat => 0) m = (fun _ : Nat => 0) m) ∧
    (lzdg_generate_data 2 (fun r => r) (fun _ => 0) (fun _ => 0) 3 1 =
      lzdg_generate_data 2 (fun r => r) (fun _ => 0) (fun _ => 0) 3 1 ∧
     lzdg_generate_data_bulk 2 (fun r => r) (fun _ => 0) (fun _ => 0) 3 1 =
      lzdg_generate_data_bulk 2 (fun r => r) (fun _ => 0) (fun _ => 0) 3 1) :=
  ⟨fun _m => rfl, c9_deterministic (fun _m => rfl)⟩

set_option maxRecDepth 600000 in
theorem c10_witness :
    generate_data_internal 2 (fun r => r) (fun _ => 0) none repDrawStream 4 1 0 =
      some ([0, 0, 0, 0],
        [⟨true, 0, List.replicate 258 0, Run.rep [] [0, 0, 0]⟩,
         ⟨false, 0, List.replicate 258 0, Run.rep [0] []⟩], 773) ∧
    ((∀ it ∈ ([⟨true, 0, List.replicate 258 0, Run.rep [] [0, 0, 0]⟩,
        ⟨false, 0, List.replicate 258 0, Run.rep [0] []⟩] : List Iter),
        it.run.repBytes <+: it.buf) ∧
      ∀ (pre : List Iter) (a : Iter) (mid : List Iter) (b : Iter) (post : List Iter),
        ([⟨true, 0, List.replicate 258 0, Run.rep [] [0, 0, 0]⟩,
          ⟨false, 0, List.replicate 258 0, Run.rep [0] []⟩] : List Iter) =
          pre ++ a :: (mid ++ b :: post) →
        (∀ x ∈ mid, x.refilled = false) → b.refilled = false →
        a.run.repBytes <+: b.run.repBytes ∨ b.run.repBytes <+: a.run.repBytes) := by
  have h : generate_data_internal 2 (fun r => r) (fun _ => 0) none repDrawStream 4 1 0 =
      some ([0, 0, 0, 0],
        [⟨true, 0, List.replicate 258 0, Run.rep [] [0, 0, 0]⟩,
         ⟨false, 0, List.replicate 258 0, Run.rep [0] []⟩], 773) := by
    with_unfolding_all decide
  exact ⟨h, c10_reps_prefix_of_scratch h⟩

theorem c6_witness :
    (∀ x : Nat, (fun _ : Nat => 0) x < 256) ∧ 1 ≤ 1 ∧
    lzdg_generate_data_bulk 2 (fun r => r) (fun _ => 0) (fun _ => 0) 0 1 = some [] ∧
    ∃ L : List (Nat × List Nat),
      ([] : List Nat) = (L.map fun pr => pr.2).flatten ∧
      ∀ pr ∈ L,
        pr.2.length ≤ 1024 * 1024 ∧
        (generate_literals_from_distribution (fun r => r) (fun _ => 0)
          pr.1 16384).1.length = 16384 ∧
        ∀ b ∈ pr.2, ∃ j, j < 16384 ∧
          (generate_literals_from_distribution (fun r => r) (fun _ => 0)
            pr.1 16384).1.getD j 0 = b := by
  have h : lzdg_generate_data_bulk 2 (fun r => r) (fun _ => 0) (fun _ => 0) 0 1 =
      some [] := rfl
  exact ⟨fun x => by norm_num, le_rfl, h,
    c6_bulk_corpus_blocks (fun x => by norm_num) le_rfl h⟩
